import Mathlib

/-!
Shallow embedding of the MLModel repository (transmission-line model of a
multilayered dielectric system).

Source files embedded:
* `mlmodel/tlmatrix.py` — per-layer 2×2 complex ABCD matrix (`TLmatrix`),
  the wave-impedance helper, and matrix composition (`__imatmul__`).
* `mlmodel/system.py` — the layer stack (`MLsystem`), the field response
  `rt`, the power response `RT`, and the thermal-expansion thickness
  adjustment `_expansion`.

The numpy arrays in the source are outer products / broadcasts over the
frequency and angle vectors; each array entry at position (i, j) is a fixed
scalar formula of the single frequency `frequency[i]` and the single angle
`angle[j]`.  The embedding works at that per-sample level: every definition
takes one `angle : ℝ` and one `frequency : ℝ` and produces the corresponding
array entry, with complex numbers embedded as `ℂ` and the principal-branch
complex square root (numpy `**0.5` / `np.sqrt` on complex input) embedded as
`Complex.cpow · (1/2)`.  Python exceptions are embedded with `Except String`.
-/

noncomputable section

namespace MLModel

/-- speed of light constant `c` from `tlmatrix.py`. -/
def c : ℝ := 299792458

/-- free-space impedance `Z_0 = 120 * np.pi` from `tlmatrix.py`. -/
def Z0 : ℝ := 120 * Real.pi

/-- principal-branch complex square root: numpy's `e**0.5` / `np.sqrt` on a
complex argument, i.e. `exp (log z / 2)` with the principal logarithm, and
`0 ** 0.5 = 0`. -/
def csqrt (z : ℂ) : ℂ := z ^ ((1 : ℂ) / 2)

/-- the four complex matrix elements of a transmission-line (ABCD) matrix,
class `TLmatrix` of `tlmatrix.py`, at one (frequency, angle) sample. -/
structure TLmatrix where
  A : ℂ
  B : ℂ
  C : ℂ
  D : ℂ

/-- the identity matrix produced by `TLmatrix()` with no input
(the final `else` branch of `TLmatrix.__init__`). -/
def TLmatrix.identity : TLmatrix := ⟨1, 0, 0, 1⟩

/-- method `TLmatrix.impedance` of `tlmatrix.py`: the polarization-dependent
wave impedance, raising `ValueError` for a polarization other than
`'s'` / `'p'`. -/
def impedance (e : ℂ) (angle : ℝ) (polarization : String) : Except String ℂ :=
  if polarization = "p" then
    Except.ok (↑Z0 * csqrt (e - ↑(Real.sin angle ^ 2)) / e)
  else if polarization = "s" then
    Except.ok (↑Z0 / csqrt (e - ↑(Real.sin angle ^ 2)))
  else
    Except.error "Polarization input should be s or p"

/-- the transmitted angle of `TLmatrix.__init__`:
`np.arcsin(np.real(e_surr**0.5) / np.real(e**0.5) * np.sin(angle))`. -/
def theta_t (e e_surr : ℂ) (angle : ℝ) : ℝ :=
  Real.arcsin ((csqrt e_surr).re / (csqrt e).re * Real.sin angle)

/-- `wavelength = c / frequency` from `TLmatrix.__init__`. -/
def wavelength (frequency : ℝ) : ℝ := c / frequency

/-- the propagation constant of `TLmatrix.__init__`, per sample:
`gamma = 2j * (np.pi * e**0.5 / wavelength) * np.cos(angle_t)`. -/
def gamma (e e_surr : ℂ) (angle frequency : ℝ) : ℂ :=
  2 * Complex.I * (↑Real.pi * csqrt e / ↑(wavelength frequency)) *
    ↑(Real.cos (theta_t e e_surr angle))

/-- the grid impedance of the `grid` branch of `TLmatrix.__init__`, per
frequency sample: `Z = 1j * Z_0 * (d / wavelength) * np.log(1 / np.sin(np.pi * e / d))`. -/
def gridZ (d : ℝ) (e : ℂ) (frequency : ℝ) : ℂ :=
  Complex.I * ↑Z0 * (↑(d / wavelength frequency) *
    Complex.log (1 / Complex.sin (↑Real.pi * e / ↑d)))

/-- the zero guard `Z[np.where(Z == 0)[0]] += 1` of the `grid` branch, per
entry (the grid impedance array has a single column, so the row selected by
`np.where(Z == 0)[0]` is exactly the zero entry itself). -/
def gridZguard (z : ℂ) : ℂ := if z = 0 then z + 1 else z

/-- constructor `TLmatrix.__init__(layer_type, d, e, e_surr, angle, frequency,
polarization)` of `tlmatrix.py`, per (frequency, angle) sample.  The four
branches mirror the source: `"layer"`, `"shunt"`, `"grid"` (p-polarization
only), and the identity fallback.  The `"layer"` branch first calls
`impedance`, whose `ValueError` propagates. -/
def TLmatrix.init (layer_type : String) (d : ℝ) (e e_surr : ℂ)
    (angle frequency : ℝ) (polarization : String) : Except String TLmatrix :=
  if layer_type = "layer" then do
    let Z ← impedance e angle polarization
    let g := gamma e e_surr angle frequency
    Except.ok ⟨Complex.cosh (g * ↑d), Complex.sinh (g * ↑d) * Z,
               Complex.sinh (g * ↑d) / Z, Complex.cosh (g * ↑d)⟩
  else if layer_type = "shunt" then
    Except.ok ⟨1, 0, 1 / ↑d, 1⟩
  else if layer_type = "grid" ∧ polarization = "p" then
    Except.ok ⟨1, 0, 1 / gridZguard (gridZ d e frequency), 1⟩
  else
    Except.ok TLmatrix.identity

/-- method `TLmatrix.__imatmul__` of `tlmatrix.py`, written as a pure
function: `self` is the accumulated stack matrix (left operand of `@=`),
`other` the next layer matrix. -/
def TLmatrix.matmul (self other : TLmatrix) : TLmatrix :=
  ⟨self.A * other.A + self.B * other.C,
   self.A * other.B + self.B * other.D,
   self.C * other.A + self.D * other.C,
   self.C * other.B + self.D * other.D⟩

/-- one stored layer of `MLsystem`: the source keeps four parallel lists
`self.type`, `self.d`, `self.e`, `self.CTE`, always appended to together by
`MLsystem.add`, embedded here as a single list of records. -/
structure Layer where
  type : String
  d : ℝ
  e : ℂ
  cte : Option String

/-- class `MLsystem` of `system.py`: the surrounding permittivity and the
ordered layer storage. -/
structure MLsystem where
  e_surr : ℂ
  layers : List Layer

/-- method `MLsystem.add`: append one layer to the storage. -/
def MLsystem.add (sys : MLsystem) (layer_type : String) (d : ℝ) (e : ℂ)
    (cte : Option String) : MLsystem :=
  ⟨sys.e_surr, sys.layers ++ [⟨layer_type, d, e, cte⟩]⟩

/-- Modelled from the spec: the external thermal-expansion data files
`mlmodel/data/<material>_t.dat` (absent from `src/`) read by
`MLsystem._expansion` via `np.loadtxt` and `scipy.interpolate.interp1d`.
A table maps a material name to an interpolated temperature → expansion
fraction function, and a missing file (missing material) is a lookup miss. -/
def ExpTable : Type := String → Option (ℝ → ℝ)

/-- the material name formatted into the data-file path
`mlmodel/data/<cte>_t.dat` built with str.format: Python renders a missing
CTE (`None`) as the string `"None"`. -/
def cteName : Option String → String
  | none => "None"
  | some m => m

/-- method `MLsystem._expansion`, against the spec-modelled table: look up
the layer material and return `self.d[n] * (1 + interp1d(T, f)(temperature))`;
a missing table (missing data file) fails. -/
def expansion (table : ExpTable) (cte : Option String) (d : ℝ)
    (temperature : ℝ) : Except String ℝ :=
  match table (cteName cte) with
  | none => Except.error "missing material"
  | some frac => Except.ok (d * (1 + frac temperature))

/-- the thickness selection inside the loop of `MLsystem.rt`:
`if temperature is not None: d = self._expansion(n, temperature)
 else: d = self.d[n]`. -/
def effThickness (table : ExpTable) (l : Layer) (temperature : Option ℝ) :
    Except String ℝ :=
  match temperature with
  | some T => expansion table l.cte l.d T
  | none => Except.ok l.d

/-- the layer loop of `MLsystem.rt`: starting from the accumulator `M`,
build each layer matrix in storage order and compose it on the right with
`@=`. -/
def systemMatrixAux (table : ExpTable) (e_surr : ℂ) (angle frequency : ℝ)
    (polarization : String) (temperature : Option ℝ) :
    TLmatrix → List Layer → Except String TLmatrix
  | M, [] => Except.ok M
  | M, l :: ls => do
    let d ← effThickness table l temperature
    let Ml ← TLmatrix.init l.type d l.e e_surr angle frequency polarization
    systemMatrixAux table e_surr angle frequency polarization temperature
      (M.matmul Ml) ls

/-- the full-system transmission-line matrix computed by the loop of
`MLsystem.rt`, starting from `M = TLmatrix()` (the identity). -/
def MLsystem.systemMatrix (sys : MLsystem) (table : ExpTable)
    (angle frequency : ℝ) (polarization : String) (temperature : Option ℝ) :
    Except String TLmatrix :=
  systemMatrixAux table sys.e_surr angle frequency polarization temperature
    TLmatrix.identity sys.layers

/-- the per-layer matrices of one `MLsystem.rt` call, in storage order
(the sequence of `TLmatrix(...)` values the loop composes). -/
def layerMatrices (table : ExpTable) (e_surr : ℂ) (angle frequency : ℝ)
    (polarization : String) (temperature : Option ℝ) :
    List Layer → Except String (List TLmatrix)
  | [] => Except.ok []
  | l :: ls => do
    let d ← effThickness table l temperature
    let Ml ← TLmatrix.init l.type d l.e e_surr angle frequency polarization
    let rest ← layerMatrices table e_surr angle frequency polarization
      temperature ls
    Except.ok (Ml :: rest)

/-- method `MLsystem.rt` of `system.py`: compose the layer matrices, compute
the source impedance `Z_s = M.impedance(self.e_surr, angle, polarization)`,
and return the field reflection and transmission coefficients. -/
def MLsystem.rt (sys : MLsystem) (table : ExpTable) (angle frequency : ℝ)
    (polarization : String) (temperature : Option ℝ) :
    Except String (ℂ × ℂ) := do
  let M ← sys.systemMatrix table angle frequency polarization temperature
  let Zs ← impedance sys.e_surr angle polarization
  let r := (M.A * Zs + M.B - M.C * Zs * Zs - M.D * Zs) /
           (M.A * Zs + M.B + M.C * Zs * Zs + M.D * Zs)
  let t := 2 * Zs / (M.A * Zs + M.B + M.C * Zs * Zs + M.D * Zs)
  Except.ok (r, t)

/-- method `MLsystem.RT` of `system.py`: `R = np.abs(r)**2`, `T = np.abs(t)**2`. -/
def MLsystem.RT (sys : MLsystem) (table : ExpTable) (angle frequency : ℝ)
    (polarization : String) (temperature : Option ℝ) :
    Except String (ℝ × ℝ) := do
  let rt ← sys.rt table angle frequency polarization temperature
  Except.ok (Complex.abs rt.1 ^ 2, Complex.abs rt.2 ^ 2)

/-- an empty expansion table (no data files present). -/
def tbl0 : ExpTable := fun _ => none

/-- the propagation constant as the spec writes it:
`γ = j * 2π * √e / λ * cos(θ_t)` with `λ = c / f` and
`θ_t = arcsin(re(√e_surr) / re(√e) * sin θ)`; stated independently of
`gamma` so the source formula can be compared against it. -/
def gammaSpec (e e_surr : ℂ) (angle frequency : ℝ) : ℂ :=
  Complex.I * (2 * ↑Real.pi) * csqrt e * ↑(frequency / c) *
    ↑(Real.cos (Real.arcsin ((csqrt e_surr).re / (csqrt e).re * Real.sin angle)))

/-- the class of matrices with real diagonal, purely imaginary off-diagonal
and unit determinant: the shape of every lossless propagating layer matrix. -/
def Sclass (M : TLmatrix) : Prop :=
  M.A.im = 0 ∧ M.D.im = 0 ∧ M.B.re = 0 ∧ M.C.re = 0 ∧
    M.A * M.D - M.B * M.C = 1

/-- binding a success in the `Except` monad applies the continuation. -/
@[simp] lemma ok_bind {α β : Type} (x : α) (f : α → Except String β) :
    (Except.ok x >>= f) = f x := rfl

/-- binding a failure in the `Except` monad propagates the failure. -/
@[simp] lemma error_bind {α β : Type} (msg : String)
    (f : α → Except String β) :
    ((Except.error msg : Except String α) >>= f) = Except.error msg := rfl

/-- the real part of the principal square root is non-negative. -/
lemma csqrt_re_nonneg (z : ℂ) : 0 ≤ (csqrt z).re := by
  unfold csqrt
  by_cases hz : z = 0
  · simp [hz, Complex.zero_cpow (by norm_num : ((1 : ℂ)/2) ≠ 0)]
  · rw [Complex.cpow_def_of_ne_zero hz, Complex.exp_re]
    apply mul_nonneg (Real.exp_nonneg _)
    apply Real.cos_nonneg_of_mem_Icc
    have h1 : (Complex.log z * ((1 : ℂ)/2)).im = (Complex.log z).im / 2 := by
      simp [Complex.mul_im]
      ring
    constructor
    · rw [h1, Complex.log_im]
      have := Complex.neg_pi_lt_arg z
      linarith
    · rw [h1, Complex.log_im]
      have := Complex.arg_le_pi z
      linarith

/-- the principal square root squares back to its argument. -/
lemma csqrt_mul_self (z : ℂ) : csqrt z * csqrt z = z := by
  unfold csqrt
  by_cases hz : z = 0
  · simp [hz, Complex.zero_cpow (by norm_num : ((1 : ℂ)/2) ≠ 0)]
  · rw [← Complex.cpow_add _ _ hz]
    norm_num

/-- on non-negative reals the principal square root is the real one. -/
lemma csqrt_ofReal_of_nonneg {x : ℝ} (hx : 0 ≤ x) :
    csqrt ↑x = ↑(Real.sqrt x) := by
  unfold csqrt
  rw [Real.sqrt_eq_rpow, Complex.ofReal_cpow hx]
  norm_num

/-- on negative reals the principal square root is purely imaginary with
positive imaginary part. -/
lemma csqrt_ofReal_of_neg {x : ℝ} (hx : x < 0) :
    csqrt ↑x = ↑(Real.sqrt (-x)) * Complex.I := by
  unfold csqrt
  have hz : (x : ℂ) ≠ 0 := by
    simpa using ne_of_lt hx
  rw [Complex.cpow_def_of_ne_zero hz]
  have hlog : Complex.log ↑x = ↑(Real.log (-x)) + ↑Real.pi * Complex.I := by
    simp only [Complex.log]
    have habs : Complex.abs ↑x = -x := by
      rw [Complex.abs_ofReal, abs_of_neg hx]
    rw [habs, Complex.arg_ofReal_of_neg hx]
  rw [hlog]
  have hhalf : (↑(Real.log (-x)) + ↑Real.pi * Complex.I) * ((1 : ℂ)/2)
      = ↑(Real.log (-x) / 2) + ↑(Real.pi/2) * Complex.I := by
    push_cast
    ring
  rw [hhalf, Complex.exp_add, Complex.exp_mul_I]
  rw [← Complex.ofReal_exp, ← Complex.ofReal_cos, ← Complex.ofReal_sin]
  rw [Real.cos_pi_div_two, Real.sin_pi_div_two]
  have hexp : Real.exp (Real.log (-x) / 2) = Real.sqrt (-x) := by
    rw [Real.sqrt_eq_rpow, Real.rpow_def_of_pos (by linarith)]
    ring_nf
  rw [hexp]
  push_cast
  ring

/-- the source propagation constant equals the spec formula. -/
lemma gamma_eq_gammaSpec (e e_surr : ℂ) (angle frequency : ℝ) :
    gamma e e_surr angle frequency = gammaSpec e e_surr angle frequency := by
  unfold gamma gammaSpec theta_t wavelength
  push_cast
  rw [div_div_eq_mul_div]
  ring

/-- C1: constructing a grid-kind matrix with polarization `'s'` does not
raise `InvalidPolarization`; the constructor silently falls through to the
identity branch and returns the identity matrix. -/
theorem grid_s_polarization_silently_identity :
    TLmatrix.init "grid" 1 1 1 0 1 "s" = Except.ok TLmatrix.identity := by
  simp [TLmatrix.init]

/-- C10: for every layer type other than exactly `"layer"` or `"shunt"`, and
for `"grid"` with a polarization other than `'p'`, the constructor returns
the identity matrix and raises no error. -/
theorem init_unrecognized_kind_identity (lt : String) (d : ℝ) (e e_surr : ℂ)
    (angle frequency : ℝ) (pol : String) (h1 : lt ≠ "layer")
    (h2 : lt ≠ "shunt") (h3 : ¬(lt = "grid" ∧ pol = "p")) :
    TLmatrix.init lt d e e_surr angle frequency pol =
      Except.ok TLmatrix.identity := by
  unfold TLmatrix.init
  rw [if_neg h1, if_neg h2, if_neg h3]

/-- witness for C10: a layer added under the spec kind name `"dielectric"`
produces the identity (transparent) matrix. -/
theorem init_unrecognized_kind_identity_witness :
    TLmatrix.init "dielectric" 1 2 1 0 1 "s" = Except.ok TLmatrix.identity :=
  init_unrecognized_kind_identity "dielectric" 1 2 1 0 1 "s"
    (by decide) (by decide) (by decide)

/-- C5: the impedance helper returns `Z0 * sqrt(e - sin²θ) / e` for `'p'`
and `Z0 / sqrt(e - sin²θ)` for `'s'`, and raises an invalid-polarization
error if and only if the polarization is neither `'s'` nor `'p'`. -/
theorem impedance_formulas_and_error (e : ℂ) (angle : ℝ) (pol : String) :
    impedance e angle "p" =
      Except.ok (↑Z0 * csqrt (e - ↑(Real.sin angle) ^ 2) / e) ∧
    impedance e angle "s" =
      Except.ok (↑Z0 / csqrt (e - ↑(Real.sin angle) ^ 2)) ∧
    ((∃ msg, impedance e angle pol = Except.error msg) ↔
      ¬(pol = "s" ∨ pol = "p")) := by
  refine ⟨by simp [impedance], by simp [impedance], ?_, ?_⟩
  · rintro ⟨msg, hmsg⟩ (h | h) <;> subst h <;> simp [impedance] at hmsg
  · intro h
    push_neg at h
    refine ⟨"Polarization input should be s or p", ?_⟩
    unfold impedance
    rw [if_neg h.2, if_neg h.1]

/-- witness for C5: a polarization that is neither `'s'` nor `'p'` yields an
error. -/
theorem impedance_formulas_and_error_witness :
    ∃ msg, impedance 1 0 "q" = Except.error msg :=
  (impedance_formulas_and_error 1 0 "q").2.2.mpr (by decide)

/-- C8: in the grid branch the reciprocal is taken of the guarded impedance;
the guard adds 1 to an entry exactly when that entry is zero, leaves every
other entry unchanged, and its output is never zero. -/
theorem grid_zero_guard (d : ℝ) (e e_surr : ℂ) (angle frequency : ℝ)
    (z : ℂ) :
    TLmatrix.init "grid" d e e_surr angle frequency "p" =
      Except.ok ⟨1, 0, 1 / gridZguard (gridZ d e frequency), 1⟩ ∧
    (z = 0 → gridZguard z = z + 1) ∧
    (z ≠ 0 → gridZguard z = z) ∧
    gridZguard z ≠ 0 := by
  refine ⟨by simp [TLmatrix.init], ?_, ?_, ?_⟩
  · intro h
    simp [gridZguard, h]
  · intro h
    simp [gridZguard, h]
  · unfold gridZguard
    split
    · rename_i h
      rw [h]
      norm_num
    · assumption

/-- witness for C8: the guard maps a zero entry to `0 + 1`. -/
theorem grid_zero_guard_witness : gridZguard 0 = 0 + 1 :=
  (grid_zero_guard 1 1 1 0 1 0).2.1 rfl

/-- C2: for a `"layer"`-kind construction with a valid polarization, the
matrix is `A = D = cosh(γd)`, `B = sinh(γd) * Z`, `C = sinh(γd) / Z`, with
`Z` the impedance-helper value and `γ` the spec propagation constant
`j * 2π * √e / λ * cos(θ_t)`, `λ = c / f`,
`θ_t = arcsin(re(√e_surr) / re(√e) * sin θ)`. -/
theorem layer_matrix_formula (d : ℝ) (e e_surr : ℂ) (angle frequency : ℝ)
    (pol : String) (Z : ℂ) (hZ : impedance e angle pol = Except.ok Z) :
    TLmatrix.init "layer" d e e_surr angle frequency pol = Except.ok
      ⟨Complex.cosh (gammaSpec e e_surr angle frequency * ↑d),
       Complex.sinh (gammaSpec e e_surr angle frequency * ↑d) * Z,
       Complex.sinh (gammaSpec e e_surr angle frequency * ↑d) / Z,
       Complex.cosh (gammaSpec e e_surr angle frequency * ↑d)⟩ := by
  unfold TLmatrix.init
  rw [if_pos rfl, hZ, gamma_eq_gammaSpec]
  rfl

/-- witness for C2: the layer formula evaluated at a concrete input. -/
theorem layer_matrix_formula_witness :
    TLmatrix.init "layer" 1 1 1 0 1 "s" = Except.ok
      ⟨Complex.cosh (gammaSpec 1 1 0 1 * 1),
       Complex.sinh (gammaSpec 1 1 0 1 * 1) *
         (↑Z0 / csqrt (1 - ↑(Real.sin 0 ^ 2))),
       Complex.sinh (gammaSpec 1 1 0 1 * 1) /
         (↑Z0 / csqrt (1 - ↑(Real.sin 0 ^ 2))),
       Complex.cosh (gammaSpec 1 1 0 1 * 1)⟩ :=
  layer_matrix_formula 1 1 1 0 1 "s" _ (by simp [impedance])

/-- the layer loop equals a left fold of the per-layer matrices over the
accumulator, whenever every per-layer construction succeeds. -/
lemma systemMatrixAux_eq_foldl (table : ExpTable) (e_surr : ℂ)
    (angle frequency : ℝ) (pol : String) (temp : Option ℝ) (ls : List Layer) :
    ∀ (M : TLmatrix) (Ms : List TLmatrix),
      layerMatrices table e_surr angle frequency pol temp ls = Except.ok Ms →
      systemMatrixAux table e_surr angle frequency pol temp M ls =
        Except.ok (Ms.foldl TLmatrix.matmul M) := by
  induction ls with
  | nil =>
    intro M Ms h
    simp [layerMatrices] at h
    subst h
    simp [systemMatrixAux]
  | cons l ls ih =>
    intro M Ms h
    rcases hd : effThickness table l temp with msg | dval
    · simp [layerMatrices, hd] at h
    rcases hi : TLmatrix.init l.type dval l.e e_surr angle frequency pol
        with msg | Ml
    · simp [layerMatrices, hd, hi] at h
    rcases hr : layerMatrices table e_surr angle frequency pol temp ls
        with msg | rest
    · simp [layerMatrices, hd, hi, hr] at h
    have hMs : Ms = Ml :: rest := by
      simp [layerMatrices, hd, hi, hr] at h
      exact h.symm
    subst hMs
    simp only [systemMatrixAux, hd, hi, ok_bind]
    rw [List.foldl_cons]
    exact ih (M.matmul Ml) rest hr

/-- C4: composing the accumulated matrix with the next layer matrix is the
standard 2×2 product, and the response loop is exactly a left fold of the
per-layer matrices, in stack insertion order, starting from the identity. -/
theorem composition_formula_and_fold (sys : MLsystem) (table : ExpTable)
    (angle frequency : ℝ) (pol : String) (temp : Option ℝ)
    (Ms : List TLmatrix)
    (hMs : layerMatrices table sys.e_surr angle frequency pol temp
      sys.layers = Except.ok Ms) :
    sys.systemMatrix table angle frequency pol temp =
      Except.ok (Ms.foldl TLmatrix.matmul TLmatrix.identity) ∧
    ∀ M1 M2 : TLmatrix, M1.matmul M2 =
      ⟨M1.A * M2.A + M1.B * M2.C, M1.A * M2.B + M1.B * M2.D,
       M1.C * M2.A + M1.D * M2.C, M1.C * M2.B + M1.D * M2.D⟩ :=
  ⟨systemMatrixAux_eq_foldl table sys.e_surr angle frequency pol temp
      sys.layers TLmatrix.identity Ms hMs,
   fun _ _ => rfl⟩

/-- witness for C4: a one-layer shunt stack folds from the identity. -/
theorem composition_formula_and_fold_witness :
    MLsystem.systemMatrix ⟨1, [⟨"shunt", 2, 1, none⟩]⟩ tbl0 0 1 "s" none =
      Except.ok (List.foldl TLmatrix.matmul TLmatrix.identity
        [⟨1, 0, 1 / (2 : ℂ), 1⟩]) :=
  (composition_formula_and_fold ⟨1, [⟨"shunt", 2, 1, none⟩]⟩ tbl0 0 1 "s"
    none [⟨1, 0, 1 / (2 : ℂ), 1⟩]
    (by simp [layerMatrices, effThickness, TLmatrix.init])).1

/-- C3: the response returns `r = (A·Zs + B − C·Zs² − D·Zs) / (A·Zs + B +
C·Zs² + D·Zs)` and `t = 2·Zs / (A·Zs + B + C·Zs² + D·Zs)` for the composed
system matrix and source impedance, and `RT` returns exactly
`(|r|², |t|²)`. -/
theorem rt_RT_formula (sys : MLsystem) (table : ExpTable)
    (angle frequency : ℝ) (pol : String) (temp : Option ℝ) (M : TLmatrix)
    (Zs : ℂ)
    (hM : sys.systemMatrix table angle frequency pol temp = Except.ok M)
    (hZ : impedance sys.e_surr angle pol = Except.ok Zs) :
    sys.rt table angle frequency pol temp = Except.ok
      ((M.A * Zs + M.B - M.C * Zs ^ 2 - M.D * Zs) /
         (M.A * Zs + M.B + M.C * Zs ^ 2 + M.D * Zs),
       2 * Zs / (M.A * Zs + M.B + M.C * Zs ^ 2 + M.D * Zs)) ∧
    sys.RT table angle frequency pol temp = Except.ok
      (Complex.abs ((M.A * Zs + M.B - M.C * Zs ^ 2 - M.D * Zs) /
         (M.A * Zs + M.B + M.C * Zs ^ 2 + M.D * Zs)) ^ 2,
       Complex.abs (2 * Zs /
         (M.A * Zs + M.B + M.C * Zs ^ 2 + M.D * Zs)) ^ 2) := by
  have hrt : sys.rt table angle frequency pol temp = Except.ok
      ((M.A * Zs + M.B - M.C * Zs ^ 2 - M.D * Zs) /
         (M.A * Zs + M.B + M.C * Zs ^ 2 + M.D * Zs),
       2 * Zs / (M.A * Zs + M.B + M.C * Zs ^ 2 + M.D * Zs)) := by
    unfold MLsystem.rt
    rw [hM, hZ]
    simp only [ok_bind, Except.ok.injEq, Prod.mk.injEq]
    constructor <;> ring_nf
  refine ⟨hrt, ?_⟩
  unfold MLsystem.RT
  rw [hrt]
  simp only [ok_bind]

/-- witness for C3: the empty stack at normal incidence. -/
theorem rt_RT_formula_witness :
    MLsystem.rt ⟨1, []⟩ tbl0 0 1 "s" none = Except.ok
      ((TLmatrix.identity.A * (↑Z0 / csqrt (1 - ↑(Real.sin 0 ^ 2))) +
          TLmatrix.identity.B -
          TLmatrix.identity.C * (↑Z0 / csqrt (1 - ↑(Real.sin 0 ^ 2))) ^ 2 -
          TLmatrix.identity.D * (↑Z0 / csqrt (1 - ↑(Real.sin 0 ^ 2)))) /
        (TLmatrix.identity.A * (↑Z0 / csqrt (1 - ↑(Real.sin 0 ^ 2))) +
          TLmatrix.identity.B +
          TLmatrix.identity.C * (↑Z0 / csqrt (1 - ↑(Real.sin 0 ^ 2))) ^ 2 +
          TLmatrix.identity.D * (↑Z0 / csqrt (1 - ↑(Real.sin 0 ^ 2)))),
       2 * (↑Z0 / csqrt (1 - ↑(Real.sin 0 ^ 2))) /
        (TLmatrix.identity.A * (↑Z0 / csqrt (1 - ↑(Real.sin 0 ^ 2))) +
          TLmatrix.identity.B +
          TLmatrix.identity.C * (↑Z0 / csqrt (1 - ↑(Real.sin 0 ^ 2))) ^ 2 +
          TLmatrix.identity.D * (↑Z0 / csqrt (1 - ↑(Real.sin 0 ^ 2))))) := by
  have h := rt_RT_formula ⟨1, []⟩ tbl0 0 1 "s" none TLmatrix.identity
    (↑Z0 / csqrt (1 - ↑(Real.sin 0 ^ 2))) (by rfl) (by simp [impedance])
  exact h.1

/-- C7: with no temperature the reference thickness is used unmodified, and
with a temperature and a present thermal reference the thickness is scaled
to `d * (1 + fraction(T))`; but with a temperature and *no* thermal
reference the response call fails on the missing `"None"` material instead
of using the reference thickness. -/
theorem effective_thickness_behavior :
    (∀ (table : ExpTable) (l : Layer),
      effThickness table l none = Except.ok l.d) ∧
    (∀ (g : ℝ → ℝ) (m : String) (dd T : ℝ) (ty : String) (ee : ℂ),
      effThickness (fun n => if n = m then some g else none)
        ⟨ty, dd, ee, some m⟩ (some T) = Except.ok (dd * (1 + g T))) ∧
    MLsystem.rt ⟨1, [⟨"shunt", 2, 1, none⟩]⟩ tbl0 0 1 "s" (some 300) =
      Except.error "missing material" := by
  refine ⟨fun table l => rfl, ?_, ?_⟩
  · intro g m dd T ty ee
    simp [effThickness, expansion, cteName]
  · rfl

/-- C9: for a passive permittivity (non-positive imaginary part), a real
angle and a valid polarization, the impedance helper returns a value with
non-negative real part (principal-branch passivity). -/
theorem impedance_passivity (e : ℂ) (angle : ℝ) (pol : String) (Z : ℂ)
    (him : e.im ≤ 0) (hpol : pol = "s" ∨ pol = "p")
    (hZ : impedance e angle pol = Except.ok Z) : 0 ≤ Z.re := by
  have hZ0 : (0 : ℝ) ≤ Z0 := by
    unfold Z0
    positivity
  rcases hpol with h | h <;> subst h
  · have hval : Z = ↑Z0 / csqrt (e - ↑(Real.sin angle ^ 2)) := by
      unfold impedance at hZ
      rw [if_neg (by decide : ¬("s" : String) = "p"), if_pos rfl] at hZ
      exact (Except.ok.inj hZ).symm
    subst hval
    set u := csqrt (e - ↑(Real.sin angle ^ 2)) with hu
    rw [Complex.div_re, Complex.ofReal_re, Complex.ofReal_im]
    have h1 : 0 ≤ u.re := csqrt_re_nonneg _
    have h2 : 0 ≤ Complex.normSq u := Complex.normSq_nonneg u
    have h3 : 0 ≤ Z0 * u.re / Complex.normSq u := by positivity
    simpa using h3
  · have hval : Z = ↑Z0 * csqrt (e - ↑(Real.sin angle ^ 2)) / e := by
      unfold impedance at hZ
      rw [if_pos rfl] at hZ
      exact (Except.ok.inj hZ).symm
    subst hval
    set u := csqrt (e - ↑(Real.sin angle ^ 2)) with hu
    have huu : u * u = e - ↑(Real.sin angle ^ 2) := csqrt_mul_self _
    have hre := congrArg Complex.re huu
    have him2 := congrArg Complex.im huu
    simp only [Complex.mul_re, Complex.mul_im, Complex.sub_re,
      Complex.sub_im, Complex.ofReal_re, Complex.ofReal_im] at hre him2
    have h1 : 0 ≤ u.re := csqrt_re_nonneg _
    have hnum : u.re * e.re + u.im * e.im =
        u.re * (u.re ^ 2 + u.im ^ 2 + Real.sin angle ^ 2) := by
      linear_combination (-u.re) * hre + (-u.im) * him2
    rw [Complex.div_re]
    have hmulre : (↑Z0 * u).re = Z0 * u.re := by
      simp [Complex.mul_re]
    have hmulim : (↑Z0 * u).im = Z0 * u.im := by
      simp [Complex.mul_im]
    rw [hmulre, hmulim]
    have hkey : Z0 * u.re * e.re / Complex.normSq e +
        Z0 * u.im * e.im / Complex.normSq e =
        Z0 * (u.re * (u.re ^ 2 + u.im ^ 2 + Real.sin angle ^ 2)) /
          Complex.normSq e := by
      rw [div_add_div_same]
      rw [show Z0 * u.re * e.re + Z0 * u.im * e.im =
        Z0 * (u.re * e.re + u.im * e.im) by ring, hnum]
    rw [hkey]
    have h2 : 0 ≤ u.re * (u.re ^ 2 + u.im ^ 2 + Real.sin angle ^ 2) := by
      positivity
    exact div_nonneg (mul_nonneg hZ0 h2) (Complex.normSq_nonneg e)

/-- the identity matrix is a left unit for composition. -/
lemma identity_matmul (N : TLmatrix) : TLmatrix.identity.matmul N = N := by
  cases N
  simp [TLmatrix.matmul, TLmatrix.identity]

/-- the identity matrix lies in the lossless class. -/
lemma Sclass_identity : Sclass TLmatrix.identity := by
  refine ⟨?_, ?_, ?_, ?_, ?_⟩ <;> simp [TLmatrix.identity]

/-- the lossless class is closed under composition. -/
lemma Sclass_matmul {M N : TLmatrix} (hM : Sclass M) (hN : Sclass N) :
    Sclass (M.matmul N) := by
  obtain ⟨hA1, hD1, hB1, hC1, hdet1⟩ := hM
  obtain ⟨hA2, hD2, hB2, hC2, hdet2⟩ := hN
  refine ⟨?_, ?_, ?_, ?_, ?_⟩
  · show (M.A * N.A + M.B * N.C).im = 0
    simp [Complex.add_im, Complex.mul_im, hA1, hA2, hB1, hC2]
  · show (M.C * N.B + M.D * N.D).im = 0
    simp [Complex.add_im, Complex.mul_im, hD1, hD2, hB2, hC1]
  · show (M.A * N.B + M.B * N.D).re = 0
    simp [Complex.add_re, Complex.mul_re, hA1, hB2, hB1, hD2]
  · show (M.C * N.A + M.D * N.C).re = 0
    simp [Complex.add_re, Complex.mul_re, hC1, hA2, hD1, hC2]
  · show (M.A * N.A + M.B * N.C) * (M.C * N.B + M.D * N.D) -
      (M.A * N.B + M.B * N.D) * (M.C * N.A + M.D * N.C) = 1
    linear_combination (N.A * N.D - N.B * N.C) * hdet1 + hdet2

/-- core algebra: for a real-diagonal, imaginary-off-diagonal unimodular
matrix and a real nonzero source impedance, the squared moduli of the
reflection and transmission coefficients sum to one. -/
lemma rt_sum_realZs_core (a dd b cc y : ℝ) (hdet : a * dd + b * cc = 1)
    (hy : y ≠ 0) :
    Complex.abs ((↑a * ↑y + ↑b * Complex.I - ↑cc * Complex.I * ↑y * ↑y -
        ↑dd * ↑y) /
        (↑a * ↑y + ↑b * Complex.I + ↑cc * Complex.I * ↑y * ↑y + ↑dd * ↑y)) ^ 2 +
      Complex.abs (2 * (↑y : ℂ) /
        (↑a * ↑y + ↑b * Complex.I + ↑cc * Complex.I * ↑y * ↑y + ↑dd * ↑y)) ^ 2
      = 1 := by
  have hnum : (↑a * ↑y + ↑b * Complex.I - ↑cc * Complex.I * ↑y * ↑y -
      ↑dd * ↑y : ℂ)
      = ↑((a - dd) * y) + ↑(b - cc * y ^ 2) * Complex.I := by
    push_cast
    ring
  have hden : (↑a * ↑y + ↑b * Complex.I + ↑cc * Complex.I * ↑y * ↑y +
      ↑dd * ↑y : ℂ)
      = ↑((a + dd) * y) + ↑(b + cc * y ^ 2) * Complex.I := by
    push_cast
    ring
  rw [hnum, hden, map_div₀, map_div₀, div_pow, div_pow, Complex.sq_abs,
    Complex.sq_abs, Complex.sq_abs, Complex.normSq_add_mul_I,
    Complex.normSq_add_mul_I]
  have h2y : Complex.normSq (2 * ↑y) = 4 * y ^ 2 := by
    rw [show ((2 : ℂ) * ↑y) = ↑(2 * y) by push_cast; ring,
      Complex.normSq_ofReal]
    ring
  rw [h2y]
  have hNpos : 0 < ((a + dd) * y) ^ 2 + (b + cc * y ^ 2) ^ 2 := by
    have hkey : ((a + dd) * y) ^ 2 + (b + cc * y ^ 2) ^ 2
        = ((a - dd) * y) ^ 2 + (b - cc * y ^ 2) ^ 2 + 4 * y ^ 2 := by
      linear_combination (4 * y ^ 2) * hdet
    rw [hkey]
    have h4 : 0 < 4 * y ^ 2 := by positivity
    nlinarith [sq_nonneg ((a - dd) * y), sq_nonneg (b - cc * y ^ 2)]
  rw [div_add_div_same,
    show ((a - dd) * y) ^ 2 + (b - cc * y ^ 2) ^ 2 + 4 * y ^ 2 =
      ((a + dd) * y) ^ 2 + (b + cc * y ^ 2) ^ 2 from by
      linear_combination (-(4 * y ^ 2)) * hdet]
  exact div_self (ne_of_gt hNpos)

/-- for a lossless-class system matrix and a real nonzero source impedance,
reflected plus transmitted power is one. -/
lemma Sclass_rt_sum {M : TLmatrix} (hS : Sclass M) {y : ℝ} (hy : y ≠ 0) :
    Complex.abs ((M.A * ↑y + M.B - M.C * ↑y * ↑y - M.D * ↑y) /
        (M.A * ↑y + M.B + M.C * ↑y * ↑y + M.D * ↑y)) ^ 2 +
      Complex.abs (2 * ↑y /
        (M.A * ↑y + M.B + M.C * ↑y * ↑y + M.D * ↑y)) ^ 2 = 1 := by
  obtain ⟨hA, hD, hB, hC, hdet⟩ := hS
  have hAeq : M.A = ↑(M.A.re) := by
    apply Complex.ext <;> simp [hA]
  have hDeq : M.D = ↑(M.D.re) := by
    apply Complex.ext <;> simp [hD]
  have hBeq : M.B = ↑(M.B.im) * Complex.I := by
    apply Complex.ext <;> simp [hB]
  have hCeq : M.C = ↑(M.C.im) * Complex.I := by
    apply Complex.ext <;> simp [hC]
  have hdetR : M.A.re * M.D.re + M.B.im * M.C.im = 1 := by
    rw [hAeq, hBeq, hCeq, hDeq] at hdet
    have h2 : (↑(M.A.re * M.D.re + M.B.im * M.C.im) : ℂ) = 1 := by
      calc (↑(M.A.re * M.D.re + M.B.im * M.C.im) : ℂ)
          = ↑(M.A.re) * ↑(M.D.re) -
            ↑(M.B.im) * Complex.I * (↑(M.C.im) * Complex.I) := by
            push_cast
            linear_combination (↑(M.B.im) * ↑(M.C.im) : ℂ) * Complex.I_sq
        _ = 1 := hdet
    exact_mod_cast h2
  rw [hAeq, hBeq, hCeq, hDeq]
  exact rt_sum_realZs_core M.A.re M.D.re M.B.im M.C.im y hdetR hy

/-- core algebra: for a real-diagonal, imaginary-off-diagonal matrix and a
purely imaginary source impedance, the squared moduli of the coefficients
sum to an explicit real ratio. -/
lemma rt_sum_imagZs_core (a dd b cc y : ℝ) :
    Complex.abs ((↑a * (↑y * Complex.I) + ↑b * Complex.I -
        ↑cc * Complex.I * (↑y * Complex.I) * (↑y * Complex.I) -
        ↑dd * (↑y * Complex.I)) /
        (↑a * (↑y * Complex.I) + ↑b * Complex.I +
          ↑cc * Complex.I * (↑y * Complex.I) * (↑y * Complex.I) +
          ↑dd * (↑y * Complex.I))) ^ 2 +
      Complex.abs (2 * ((↑y : ℝ) * Complex.I) /
        (↑a * (↑y * Complex.I) + ↑b * Complex.I +
          ↑cc * Complex.I * (↑y * Complex.I) * (↑y * Complex.I) +
          ↑dd * (↑y * Complex.I))) ^ 2
      = (((a - dd) * y + b + cc * y ^ 2) ^ 2 + 4 * y ^ 2) /
        ((a + dd) * y + b - cc * y ^ 2) ^ 2 := by
  have hnsq : ∀ p : ℝ, Complex.normSq (↑p * Complex.I) = p ^ 2 := by
    intro p
    rw [Complex.normSq_mul, Complex.normSq_ofReal, Complex.normSq_I]
    ring
  have hnum : (↑a * (↑y * Complex.I) + ↑b * Complex.I -
      ↑cc * Complex.I * (↑y * Complex.I) * (↑y * Complex.I) -
      ↑dd * (↑y * Complex.I) : ℂ)
      = ↑((a - dd) * y + b + cc * y ^ 2) * Complex.I := by
    push_cast
    linear_combination (-((↑cc : ℂ) * (↑y : ℂ) ^ 2 * Complex.I)) *
      Complex.I_sq
  have hden : (↑a * (↑y * Complex.I) + ↑b * Complex.I +
      ↑cc * Complex.I * (↑y * Complex.I) * (↑y * Complex.I) +
      ↑dd * (↑y * Complex.I) : ℂ)
      = ↑((a + dd) * y + b - cc * y ^ 2) * Complex.I := by
    push_cast
    linear_combination ((↑cc : ℂ) * (↑y : ℂ) ^ 2 * Complex.I) * Complex.I_sq
  have h2y : (2 : ℂ) * (↑y * Complex.I) = ↑(2 * y) * Complex.I := by
    push_cast
    ring
  rw [hnum, hden, h2y, map_div₀, map_div₀, div_pow, div_pow,
    Complex.sq_abs, Complex.sq_abs, Complex.sq_abs,
    hnsq, hnsq, hnsq]
  rw [div_add_div_same]
  congr 1
  ring

/-- for a real permittivity strictly above `sin²θ`, the impedance helper
returns a nonzero real value for either valid polarization. -/
lemma impedance_real_layer (er : ℝ) (angle : ℝ) (pol : String)
    (hpol : pol = "s" ∨ pol = "p") (hgt : Real.sin angle ^ 2 < er) :
    ∃ Zr : ℝ, Zr ≠ 0 ∧ impedance ↑er angle pol = Except.ok ↑Zr := by
  have hq : (0 : ℝ) < er - Real.sin angle ^ 2 := by linarith
  have hcs : csqrt (↑er - ↑(Real.sin angle ^ 2)) =
      ↑(Real.sqrt (er - Real.sin angle ^ 2)) := by
    rw [show (↑er - ↑(Real.sin angle ^ 2) : ℂ) = ↑(er - Real.sin angle ^ 2)
      by push_cast; ring]
    exact csqrt_ofReal_of_nonneg (le_of_lt hq)
  have hsq : 0 < Real.sqrt (er - Real.sin angle ^ 2) := Real.sqrt_pos.mpr hq
  have hZ0pos : 0 < Z0 := by
    unfold Z0
    positivity
  have herpos : 0 < er := lt_of_le_of_lt (sq_nonneg _) hgt
  rcases hpol with h | h <;> subst h
  · refine ⟨Z0 / Real.sqrt (er - Real.sin angle ^ 2), by positivity, ?_⟩
    unfold impedance
    rw [if_neg (by decide : ¬("s" : String) = "p"), if_pos rfl, hcs,
      ← Complex.ofReal_div]
  · refine ⟨Z0 * Real.sqrt (er - Real.sin angle ^ 2) / er, by positivity, ?_⟩
    unfold impedance
    rw [if_pos rfl, hcs, ← Complex.ofReal_mul, ← Complex.ofReal_div]

/-- a `"layer"`-kind matrix for a real permittivity strictly above `sin²θ`
is built successfully and lies in the lossless class. -/
lemma init_layer_Sclass (er : ℝ) (e_surr : ℂ) (angle frequency d : ℝ)
    (pol : String) (hpol : pol = "s" ∨ pol = "p")
    (hgt : Real.sin angle ^ 2 < er) :
    ∃ M, TLmatrix.init "layer" d ↑er e_surr angle frequency pol =
      Except.ok M ∧ Sclass M := by
  obtain ⟨Zr, hZr, hok⟩ := impedance_real_layer er angle pol hpol hgt
  have her : (0 : ℝ) ≤ er := le_trans (sq_nonneg _) (le_of_lt hgt)
  obtain ⟨x, hx⟩ : ∃ x : ℝ,
      gamma ↑er e_surr angle frequency * ↑d = ↑x * Complex.I := by
    refine ⟨2 * (Real.pi * Real.sqrt er / wavelength frequency) *
      Real.cos (theta_t ↑er e_surr angle) * d, ?_⟩
    unfold gamma
    rw [csqrt_ofReal_of_nonneg her]
    push_cast
    ring
  have hcosh : Complex.cosh (↑x * Complex.I) = ↑(Real.cos x) := by
    rw [Complex.cosh_mul_I]
    exact (Complex.ofReal_cos x).symm
  have hsinh : Complex.sinh (↑x * Complex.I) = ↑(Real.sin x) * Complex.I := by
    rw [Complex.sinh_mul_I, ← Complex.ofReal_sin]
  have hZrC : (↑Zr : ℂ) ≠ 0 := Complex.ofReal_ne_zero.mpr hZr
  refine ⟨_, by unfold TLmatrix.init; rw [if_pos rfl, hok]; rfl, ?_⟩
  rw [hx]
  refine ⟨?_, ?_, ?_, ?_, ?_⟩
  · show (Complex.cosh (↑x * Complex.I)).im = 0
    rw [hcosh]
    simp
  · show (Complex.cosh (↑x * Complex.I)).im = 0
    rw [hcosh]
    simp
  · show (Complex.sinh (↑x * Complex.I) * ↑Zr).re = 0
    rw [hsinh]
    simp [Complex.mul_re]
  · show (Complex.sinh (↑x * Complex.I) / ↑Zr).re = 0
    rw [hsinh, Complex.div_re]
    simp
  · show Complex.cosh (↑x * Complex.I) * Complex.cosh (↑x * Complex.I) -
      Complex.sinh (↑x * Complex.I) * ↑Zr *
        (Complex.sinh (↑x * Complex.I) / ↑Zr) = 1
    have hss : Complex.sinh (↑x * Complex.I) * ↑Zr *
        (Complex.sinh (↑x * Complex.I) / ↑Zr) =
        Complex.sinh (↑x * Complex.I) ^ 2 := by
      field_simp
      ring
    rw [hss]
    linear_combination Complex.cosh_sq_sub_sinh_sq (↑x * Complex.I)

/-- over a list of lossless propagating `"layer"` layers (no temperature),
the response loop succeeds and preserves the lossless class. -/
lemma systemMatrixAux_Sclass (table : ExpTable) (e_surr : ℂ)
    (angle frequency : ℝ) (pol : String)
    (hpol : pol = "s" ∨ pol = "p") :
    ∀ ls : List Layer,
      (∀ l ∈ ls, l.type = "layer" ∧ l.e.im = 0 ∧
        Real.sin angle ^ 2 < l.e.re) →
      ∀ M, Sclass M →
      ∃ M2, systemMatrixAux table e_surr angle frequency pol none M ls =
        Except.ok M2 ∧ Sclass M2 := by
  intro ls
  induction ls with
  | nil =>
    intro _ M hM
    exact ⟨M, rfl, hM⟩
  | cons l ls ih =>
    intro hls M hM
    obtain ⟨hty, him, hgt⟩ := hls l (List.mem_cons_self l ls)
    have hE : l.e = ↑(l.e.re) := by
      apply Complex.ext <;> simp [him]
    obtain ⟨Ml, hMl, hSl⟩ :=
      init_layer_Sclass l.e.re e_surr angle frequency l.d pol hpol hgt
    have hth : effThickness table l none = Except.ok l.d := rfl
    have hstep : systemMatrixAux table e_surr angle frequency pol none M
        (l :: ls) =
        systemMatrixAux table e_surr angle frequency pol none
          (M.matmul Ml) ls := by
      simp only [systemMatrixAux, hth, ok_bind]
      rw [hty, hE, hMl]
      rfl
    obtain ⟨M2, hM2, hS2⟩ :=
      ih (fun l2 hl2 => hls l2 (List.mem_cons_of_mem _ hl2))
        (M.matmul Ml) (Sclass_matmul hM hSl)
    exact ⟨M2, by rw [hstep]; exact hM2, hS2⟩

/-- at unit surrounding permittivity and a non-grazing angle, the source
impedance is a nonzero real for either valid polarization. -/
lemma impedance_one_real (angle : ℝ) (pol : String)
    (hpol : pol = "s" ∨ pol = "p") (hcos : Real.cos angle ≠ 0) :
    ∃ y : ℝ, y ≠ 0 ∧ impedance 1 angle pol = Except.ok ↑y := by
  have hc2 : (1 : ℂ) - ↑(Real.sin angle ^ 2) = ↑(Real.cos angle ^ 2) := by
    rw [Real.cos_sq']
    push_cast
    ring
  have hcs : csqrt ((1 : ℂ) - ↑(Real.sin angle ^ 2)) =
      ↑|Real.cos angle| := by
    rw [hc2, csqrt_ofReal_of_nonneg (sq_nonneg _), Real.sqrt_sq_eq_abs]
  have habs : |Real.cos angle| ≠ 0 := abs_ne_zero.mpr hcos
  have hZ0 : Z0 ≠ 0 := by
    unfold Z0
    exact mul_ne_zero (by norm_num) Real.pi_ne_zero
  rcases hpol with h | h <;> subst h
  · refine ⟨Z0 / |Real.cos angle|, div_ne_zero hZ0 habs, ?_⟩
    unfold impedance
    rw [if_neg (by decide : ¬("s" : String) = "p"), if_pos rfl, hcs,
      ← Complex.ofReal_div]
  · refine ⟨Z0 * |Real.cos angle|, mul_ne_zero hZ0 habs, ?_⟩
    unfold impedance
    rw [if_pos rfl, hcs, div_one, ← Complex.ofReal_mul]

/-- C6 (amended): for a stack of `"layer"`-kind layers with purely real
permittivities, each strictly above `sin²θ` (propagating, nondegenerate),
surrounding permittivity exactly 1, a non-grazing angle, a valid
polarization and no temperature, `RT` returns powers summing exactly to
one. -/
theorem RT_lossless_unit_surround (sys : MLsystem) (table : ExpTable)
    (angle frequency : ℝ) (pol : String)
    (hsurr : sys.e_surr = 1) (hpol : pol = "s" ∨ pol = "p")
    (hlayers : ∀ l ∈ sys.layers, l.type = "layer" ∧ l.e.im = 0 ∧
      Real.sin angle ^ 2 < l.e.re)
    (hcos : Real.cos angle ≠ 0) :
    ∃ R T, sys.RT table angle frequency pol none = Except.ok (R, T) ∧
      R + T = 1 := by
  obtain ⟨M, hM, hS⟩ := systemMatrixAux_Sclass table sys.e_surr angle
    frequency pol hpol sys.layers hlayers TLmatrix.identity Sclass_identity
  obtain ⟨y, hy, hZs⟩ := impedance_one_real angle pol hpol hcos
  have hMsys : sys.systemMatrix table angle frequency pol none =
      Except.ok M := hM
  have hZs2 : impedance sys.e_surr angle pol = Except.ok ↑y := by
    rw [hsurr]
    exact hZs
  have hrt : sys.rt table angle frequency pol none = Except.ok
      ((M.A * ↑y + M.B - M.C * ↑y * ↑y - M.D * ↑y) /
         (M.A * ↑y + M.B + M.C * ↑y * ↑y + M.D * ↑y),
       2 * ↑y / (M.A * ↑y + M.B + M.C * ↑y * ↑y + M.D * ↑y)) := by
    unfold MLsystem.rt
    rw [hMsys, hZs2]
    simp only [ok_bind]
  have hRT : sys.RT table angle frequency pol none = Except.ok
      (Complex.abs ((M.A * ↑y + M.B - M.C * ↑y * ↑y - M.D * ↑y) /
         (M.A * ↑y + M.B + M.C * ↑y * ↑y + M.D * ↑y)) ^ 2,
       Complex.abs (2 * ↑y /
         (M.A * ↑y + M.B + M.C * ↑y * ↑y + M.D * ↑y)) ^ 2) := by
    unfold MLsystem.RT
    rw [hrt]
    simp only [ok_bind]
  exact ⟨_, _, hRT, Sclass_rt_sum hS hy⟩

/-- witness for C6 (amended): a single lossless silicon-like slab in vacuum
at normal incidence conserves power. -/
theorem RT_lossless_unit_surround_witness :
    ∃ R T, MLsystem.RT ⟨1, [⟨"layer", 1, 4, none⟩]⟩ tbl0 0 1 "s" none =
      Except.ok (R, T) ∧ R + T = 1 := by
  apply RT_lossless_unit_surround ⟨1, [⟨"layer", 1, 4, none⟩]⟩ tbl0 0 1 "s"
    rfl (Or.inl rfl)
  · intro l hl
    have hl2 : l = ⟨"layer", 1, 4, none⟩ := by
      simpa using hl
    subst hl2
    refine ⟨rfl, by norm_num, by norm_num⟩
  · norm_num

/-- witness for C9: a lossless permittivity of 4 at normal incidence. -/
theorem impedance_passivity_witness :
    0 ≤ ((↑Z0 / csqrt (4 - ↑(Real.sin 0 ^ 2)) : ℂ)).re :=
  impedance_passivity 4 0 "s" (↑Z0 / csqrt (4 - ↑(Real.sin 0 ^ 2)))
    (by norm_num) (Or.inl rfl) (by simp [impedance])

/-- counterexample for C6 as stated: a single lossless layer (`e = 2`,
purely real) in a real surrounding medium `e_surr = 1/4`, at
`θ = arcsin(4/5)` and a frequency making the slab a quarter-wave section,
yields `R + T ≠ 1` (in fact `R + T = 51841/9409 > 1`): the source impedance
uses `sin²θ` while the transmitted angle uses `e_surr`, which is only
consistent for `e_surr = 1`. -/
theorem RT_lossless_claim_counterexample :
    ∃ R T, MLsystem.RT ⟨(1/4 : ℂ), [⟨"layer", 1, 2, none⟩]⟩ tbl0
      (Real.arcsin (4/5)) (5 * c / (4 * Real.sqrt 46)) "s" none =
      Except.ok (R, T) ∧ R + T ≠ 1 := by
  set θ : ℝ := Real.arcsin (4/5) with hθ
  set fq : ℝ := 5 * c / (4 * Real.sqrt 46) with hfq
  set q1 : ℝ := Real.sqrt (34/25) with hq1
  set q2 : ℝ := Real.sqrt (39/100) with hq2
  set Zr : ℝ := Z0 / q1 with hZr
  set y₀ : ℝ := -(Z0 / q2) with hy₀
  have hsin : Real.sin θ = 4/5 := Real.sin_arcsin (by norm_num) (by norm_num)
  have hq1pos : 0 < q1 := Real.sqrt_pos.mpr (by norm_num)
  have hq2pos : 0 < q2 := Real.sqrt_pos.mpr (by norm_num)
  have hq1sq : q1 ^ 2 = 34/25 := Real.sq_sqrt (by norm_num)
  have hq2sq : q2 ^ 2 = 39/100 := Real.sq_sqrt (by norm_num)
  have hZ0pos : 0 < Z0 := by
    rw [Z0]
    positivity
  have hZrpos : 0 < Zr := by
    rw [hZr]
    positivity
  have hZrne : Zr ≠ 0 := ne_of_gt hZrpos
  have hy₀ne : y₀ ≠ 0 := by
    rw [hy₀]
    have : 0 < Z0 / q2 := by positivity
    linarith
  -- layer impedance
  have himp_layer : impedance 2 θ "s" = Except.ok ↑Zr := by
    unfold impedance
    rw [if_neg (by decide : ¬("s" : String) = "p"), if_pos rfl]
    rw [show ((2 : ℂ) - ↑(Real.sin θ ^ 2)) = ↑(34/25 : ℝ) by
      rw [hsin]; push_cast; norm_num]
    rw [csqrt_ofReal_of_nonneg (by norm_num : (0:ℝ) ≤ 34/25),
      ← Complex.ofReal_div]
  -- pieces of the propagation constant
  have hcs2 : csqrt (2 : ℂ) = ↑(Real.sqrt 2) := by
    rw [show ((2:ℂ)) = ↑((2:ℝ)) by push_cast; ring]
    exact csqrt_ofReal_of_nonneg (by norm_num)
  have hcs14 : csqrt ((1/4 : ℂ)) = ↑((1/2 : ℝ)) := by
    rw [show ((1/4:ℂ)) = ↑((1/4:ℝ)) by push_cast; ring]
    rw [csqrt_ofReal_of_nonneg (by norm_num)]
    rw [show ((1/4:ℝ)) = (1/2)^2 by norm_num, Real.sqrt_sq (by norm_num)]
  have htt : theta_t 2 (1/4) θ = Real.arcsin ((1/2) / Real.sqrt 2 * (4/5)) := by
    unfold theta_t
    rw [hcs2, hcs14, hsin, Complex.ofReal_re, Complex.ofReal_re]
  have hs2sq : Real.sqrt 2 ^ 2 = 2 := Real.sq_sqrt (by norm_num)
  have hcost : Real.cos (theta_t 2 (1/4) θ) = Real.sqrt (23/25) := by
    rw [htt, Real.cos_arcsin]
    congr 1
    rw [mul_pow, div_pow, hs2sq]
    norm_num
  have hcne : c ≠ 0 := by rw [c]; norm_num
  have h46pos : (0:ℝ) < Real.sqrt 46 := Real.sqrt_pos.mpr (by norm_num)
  have hcf : c / fq = 4 * Real.sqrt 46 / 5 := by
    rw [hfq]
    field_simp
    ring
  have h235 : Real.sqrt (23/25) = Real.sqrt 23 / 5 := by
    rw [Real.sqrt_div (by norm_num : (0:ℝ) ≤ 23),
      show ((25:ℝ)) = 5^2 by norm_num, Real.sqrt_sq (by norm_num)]
  have h2_23 : Real.sqrt 2 * Real.sqrt 23 = Real.sqrt 46 := by
    rw [← Real.sqrt_mul (by norm_num : (0:ℝ) ≤ 2)]
    norm_num
  have hval : 2 * (Real.pi * Real.sqrt 2 / (4 * Real.sqrt 46 / 5)) *
      Real.sqrt (23/25) = Real.pi / 2 := by
    rw [h235]
    field_simp
    linear_combination (20 * Real.pi) * h2_23
  have hγ : gamma 2 (1/4) θ fq * ((1:ℝ) : ℂ) =
      ↑(Real.pi / 2) * Complex.I := by
    unfold gamma wavelength
    rw [hcs2, hcost, hcf]
    calc (2 * Complex.I * (↑Real.pi * ↑(Real.sqrt 2) /
            ↑(4 * Real.sqrt 46 / 5)) * ↑(Real.sqrt (23/25)) * ((1:ℝ) : ℂ))
        = ↑(2 * (Real.pi * Real.sqrt 2 / (4 * Real.sqrt 46 / 5)) *
            Real.sqrt (23/25)) * Complex.I := by
          push_cast
          ring
      _ = ↑(Real.pi / 2) * Complex.I := by rw [hval]
  have hcosh0 : Complex.cosh (↑(Real.pi / 2) * Complex.I) = 0 := by
    rw [Complex.cosh_mul_I, ← Complex.ofReal_cos, Real.cos_pi_div_two]
    simp
  have hsinhI : Complex.sinh (↑(Real.pi / 2) * Complex.I) = Complex.I := by
    rw [Complex.sinh_mul_I, ← Complex.ofReal_sin, Real.sin_pi_div_two]
    simp
  -- the layer matrix
  have hinit : TLmatrix.init "layer" 1 2 (1/4) θ fq "s" =
      Except.ok ⟨0, Complex.I * ↑Zr, Complex.I / ↑Zr, 0⟩ := by
    unfold TLmatrix.init
    rw [if_pos rfl, himp_layer]
    simp only [ok_bind]
    rw [hγ, hcosh0, hsinhI]
  -- the system matrix
  have hsys : MLsystem.systemMatrix ⟨(1/4 : ℂ), [⟨"layer", 1, 2, none⟩]⟩
      tbl0 θ fq "s" none = Except.ok ⟨0, Complex.I * ↑Zr, Complex.I / ↑Zr, 0⟩ := by
    unfold MLsystem.systemMatrix
    have hth : effThickness tbl0 ⟨"layer", 1, 2, none⟩ none =
        Except.ok (1:ℝ) := rfl
    simp only [systemMatrixAux, hth, ok_bind]
    rw [hinit]
    simp only [ok_bind]
    rw [identity_matmul]
  -- the source impedance
  have hZs : impedance (1/4 : ℂ) θ "s" = Except.ok (↑y₀ * Complex.I) := by
    unfold impedance
    rw [if_neg (by decide : ¬("s" : String) = "p"), if_pos rfl]
    rw [show ((1/4 : ℂ) - ↑(Real.sin θ ^ 2)) = ↑(-(39/100) : ℝ) by
      rw [hsin]; push_cast; norm_num]
    rw [csqrt_ofReal_of_neg (by norm_num : (-(39/100) : ℝ) < 0)]
    rw [show (-(-(39/100) : ℝ)) = ((39/100 : ℝ)) by norm_num]
    have hq2ne : q2 ≠ 0 := ne_of_gt hq2pos
    have hinner : (↑Z0 / (↑(Real.sqrt (39/100)) * Complex.I) : ℂ) =
        ↑y₀ * Complex.I := by
      rw [← hq2, div_eq_iff (mul_ne_zero
        (Complex.ofReal_ne_zero.mpr hq2ne) Complex.I_ne_zero), hy₀]
      push_cast
      have hqq : ((q2 : ℂ)) * ((q2 : ℂ))⁻¹ = 1 :=
        mul_inv_cancel₀ (Complex.ofReal_ne_zero.mpr hq2ne)
      linear_combination (↑Z0 * (↑q2)⁻¹ * ↑q2 : ℂ) * Complex.I_sq +
        (-(↑Z0 : ℂ)) * hqq
    rw [hinner]
  -- the field coefficients
  have hrt : MLsystem.rt ⟨(1/4 : ℂ), [⟨"layer", 1, 2, none⟩]⟩ tbl0 θ fq "s"
      none = Except.ok
      ((0 * (↑y₀ * Complex.I) + Complex.I * ↑Zr -
          Complex.I / ↑Zr * (↑y₀ * Complex.I) * (↑y₀ * Complex.I) -
          0 * (↑y₀ * Complex.I)) /
        (0 * (↑y₀ * Complex.I) + Complex.I * ↑Zr +
          Complex.I / ↑Zr * (↑y₀ * Complex.I) * (↑y₀ * Complex.I) +
          0 * (↑y₀ * Complex.I)),
       2 * (↑y₀ * Complex.I) /
        (0 * (↑y₀ * Complex.I) + Complex.I * ↑Zr +
          Complex.I / ↑Zr * (↑y₀ * Complex.I) * (↑y₀ * Complex.I) +
          0 * (↑y₀ * Complex.I))) := by
    unfold MLsystem.rt
    rw [hsys, show impedance (⟨(1/4 : ℂ), [⟨"layer", 1, 2, none⟩]⟩ :
      MLsystem).e_surr θ "s" = Except.ok (↑y₀ * Complex.I) from hZs]
    simp only [ok_bind]
  have hRT : MLsystem.RT ⟨(1/4 : ℂ), [⟨"layer", 1, 2, none⟩]⟩ tbl0 θ fq "s"
      none = Except.ok
      (Complex.abs ((0 * (↑y₀ * Complex.I) + Complex.I * ↑Zr -
          Complex.I / ↑Zr * (↑y₀ * Complex.I) * (↑y₀ * Complex.I) -
          0 * (↑y₀ * Complex.I)) /
        (0 * (↑y₀ * Complex.I) + Complex.I * ↑Zr +
          Complex.I / ↑Zr * (↑y₀ * Complex.I) * (↑y₀ * Complex.I) +
          0 * (↑y₀ * Complex.I))) ^ 2,
       Complex.abs (2 * (↑y₀ * Complex.I) /
        (0 * (↑y₀ * Complex.I) + Complex.I * ↑Zr +
          Complex.I / ↑Zr * (↑y₀ * Complex.I) * (↑y₀ * Complex.I) +
          0 * (↑y₀ * Complex.I))) ^ 2) := by
    unfold MLsystem.RT
    rw [hrt]
    simp only [ok_bind]
  refine ⟨_, _, hRT, ?_⟩
  -- rewrite into the core shape
  have hshape_num : (0 * (↑y₀ * Complex.I) + Complex.I * ↑Zr -
      Complex.I / ↑Zr * (↑y₀ * Complex.I) * (↑y₀ * Complex.I) -
      0 * (↑y₀ * Complex.I) : ℂ)
      = ↑(0:ℝ) * (↑y₀ * Complex.I) + ↑Zr * Complex.I -
        ↑(Zr⁻¹) * Complex.I * (↑y₀ * Complex.I) * (↑y₀ * Complex.I) -
        ↑(0:ℝ) * (↑y₀ * Complex.I) := by
    push_cast
    ring
  have hshape_den : (0 * (↑y₀ * Complex.I) + Complex.I * ↑Zr +
      Complex.I / ↑Zr * (↑y₀ * Complex.I) * (↑y₀ * Complex.I) +
      0 * (↑y₀ * Complex.I) : ℂ)
      = ↑(0:ℝ) * (↑y₀ * Complex.I) + ↑Zr * Complex.I +
        ↑(Zr⁻¹) * Complex.I * (↑y₀ * Complex.I) * (↑y₀ * Complex.I) +
        ↑(0:ℝ) * (↑y₀ * Complex.I) := by
    push_cast
    ring
  rw [hshape_num, hshape_den,
    rt_sum_imagZs_core 0 0 Zr Zr⁻¹ y₀]
  -- the real inequality
  have hZZ : Zr * Zr⁻¹ = 1 := mul_inv_cancel₀ hZrne
  have hy2pos : 0 < y₀ ^ 2 :=
    lt_of_le_of_ne (sq_nonneg y₀) (Ne.symm (pow_ne_zero 2 hy₀ne))
  have hA1ne : (0 + 0) * y₀ + Zr - Zr⁻¹ * y₀ ^ 2 ≠ 0 := by
    intro h0
    have hZr2 : Zr ^ 2 = Z0 ^ 2 / (34/25) := by
      rw [hZr, div_pow, hq1sq]
    have hy2 : y₀ ^ 2 = Z0 ^ 2 / (39/100) := by
      rw [hy₀, neg_sq, div_pow, hq2sq]
    have hsq : Zr ^ 2 = y₀ ^ 2 := by
      have h1 : Zr * ((0 + 0) * y₀ + Zr - Zr⁻¹ * y₀ ^ 2) = 0 := by
        rw [h0]; ring
      have h2 : Zr ^ 2 - (Zr * Zr⁻¹) * y₀ ^ 2 = 0 := by
        linear_combination h1
      rw [hZZ] at h2
      linarith
    rw [hZr2, hy2] at hsq
    have hZ0sq : 0 < Z0 ^ 2 := pow_pos hZ0pos 2
    nlinarith
  rw [ne_eq, div_eq_one_iff_eq (pow_ne_zero 2 hA1ne)]
  intro heq
  have h8 : 8 * y₀ ^ 2 = 0 := by
    linear_combination heq + (-(4 * y₀^2)) * hZZ
  linarith

end MLModel
